import Mathlib

/-!
Verification development for the MAML-TRPO training repository.

The repository's driver (`train.py`) is embedded directly.  The sampler
(`MultiTaskSampler`), the meta-learner (`MAMLTRPO`) and the conjugate-gradient
solver live in the `maml_rl` package, whose code is not part of the sources
available here; those components are modelled from the specification, as noted
on each definition.  Numeric code is embedded over `ℚ` (exact arithmetic) and,
where a square root is intrinsic, over `ℝ`.
-/

namespace MamlRl

/- ----------------------------------------------------------------------
   One-step fast adaptation (policy-gradient step on the train batch).
   ---------------------------------------------------------------------- -/

/-- Modelled from the spec: the one-step fast adaptation used by the sampler
and the meta-learner (`maml_rl` package, not in the available sources).
"Adapted Parameters: a parameter vector derived from base policy parameters
via one gradient-ascent step on the train batch's surrogate objective scaled
by a fast learning rate."  `grads` is the gradient of the train batch's
surrogate loss at `params`; the step moves each coordinate by
`fast_lr` times its gradient coordinate. -/
def update_params (params grads : List ℚ) (fast_lr : ℚ) : List ℚ :=
  List.zipWith (fun p g => p - fast_lr * g) params grads

/- ----------------------------------------------------------------------
   Multi-task sampler (modelled from the spec).
   ---------------------------------------------------------------------- -/

/-- An episode batch for one task: the task descriptor it was collected for
and the policy parameters in effect during collection. -/
structure EpisodeBatch (T : Type) where
  task : T
  params : List ℚ
  deriving Repr, DecidableEq

/-- The per-task result promised by a future: the train batch (collected
under base parameters) and the valid batch (collected under the adapted
parameters). -/
structure TaskFuture (T : Type) where
  train : EpisodeBatch T
  valid : EpisodeBatch T
  deriving Repr, DecidableEq

/-- Modelled from the spec: `MultiTaskSampler.sample_async` (code not in the
available sources).  For each task, in order: collect a train batch under the
base parameters, compute the one-step adapted parameters from that batch via
`update_params`, and collect a valid batch under the adapted parameters;
return one future per task, in the order of the input task list.  `gradOf`
abstracts the policy-gradient of the train batch's surrogate loss. -/
def sample_async (T : Type) (params : List ℚ) (gradOf : T → List ℚ)
    (fast_lr : ℚ) (tasks : List T) : List (TaskFuture T) :=
  tasks.map (fun t =>
    { train := { task := t, params := params }
      valid := { task := t, params := update_params params (gradOf t) fast_lr } })

/-- Modelled from the spec: `MultiTaskSampler.sample_wait` (code not in the
available sources).  Blocks until every future is resolved — in this
deterministic embedding futures already hold their results — and returns the
index-aligned lists of train and valid episode batches. -/
def sample_wait (T : Type) (futures : List (TaskFuture T)) :
    List (EpisodeBatch T) × List (EpisodeBatch T) :=
  (futures.map TaskFuture.train, futures.map TaskFuture.valid)

/- ----------------------------------------------------------------------
   `convert_np_arrays` from train.py, over an embedding of Python values.
   ---------------------------------------------------------------------- -/

/-- Embedding of the Python values `convert_np_arrays` traverses: scalars,
numpy arrays (of rationals), Python lists and Python dicts. -/
inductive PyVal : Type where
  | scalar : ℚ → PyVal
  | npArray : List ℚ → PyVal
  | pyList : List PyVal → PyVal
  | pyDict : List (String × PyVal) → PyVal
  deriving Repr

mutual

/-- Embedding of `convert_np_arrays` from train.py: on a dict, rewrite each
value (an `np.ndarray` value becomes a plain list via `tolist`, a dict value
is processed recursively, a list value has the function mapped over its
items); on a list, map the function over the items; anything else — including
a numpy array reached as a list item or at top level — is returned
unchanged. -/
def convert_np_arrays : PyVal → PyVal
  | PyVal.pyDict kvs => PyVal.pyDict (convertEntries kvs)
  | PyVal.pyList items => PyVal.pyList (convertItems items)
  | v => v

/-- The dict branch of `convert_np_arrays`: per-key rewriting of values. -/
def convertEntries : List (String × PyVal) → List (String × PyVal)
  | [] => []
  | (k, PyVal.npArray a) :: rest =>
      (k, PyVal.pyList (a.map PyVal.scalar)) :: convertEntries rest
  | (k, PyVal.pyDict d) :: rest =>
      (k, convert_np_arrays (PyVal.pyDict d)) :: convertEntries rest
  | (k, PyVal.pyList l) :: rest =>
      (k, PyVal.pyList (convertItems l)) :: convertEntries rest
  | (k, v) :: rest => (k, v) :: convertEntries rest

/-- The list branch of `convert_np_arrays`: the function applied to each
item. -/
def convertItems : List PyVal → List PyVal
  | [] => []
  | v :: rest => convert_np_arrays v :: convertItems rest

end

/- ----------------------------------------------------------------------
   Trust-region step size and backtracking line search
   (MAMLTRPO.step, modelled from the spec).
   ---------------------------------------------------------------------- -/

/-- Modelled from the spec: the acceptance test of the backtracking line
search in `MAMLTRPO.step` (code not in the available sources).  A trial scale
`s` is accepted when the surrogate objective at that scale strictly improves
over the pre-update value (`surr s < old_loss`, the surrogate being a loss)
and the realized mean KL divergence does not exceed `max_kl`. -/
def lsAccept (surr kl : ℚ → ℚ) (old_loss max_kl : ℚ) (s : ℚ) : Bool :=
  decide (surr s < old_loss) && decide (kl s ≤ max_kl)

/-- Modelled from the spec: the backtracking line search of `MAMLTRPO.step`
(code not in the available sources).  Starting from the maximal trust-region
scale, try at most `ls_max_steps` scales, multiplying by
`ls_backtrack_ratio` after each failed trial, and return the first accepted
scale; `none` when every trial fails.  `surr s` (resp. `kl s`) is the
surrogate objective (resp. realized mean KL) obtained by setting the policy
parameters to the candidate update at scale `s`. -/
def line_search (surr kl : ℚ → ℚ) (old_loss max_kl ls_backtrack_ratio : ℚ) :
    ℕ → ℚ → Option ℚ
  | 0, _ => none
  | n + 1, s =>
      if lsAccept surr kl old_loss max_kl s then some s
      else line_search surr kl old_loss max_kl ls_backtrack_ratio n
        (s * ls_backtrack_ratio)

/-- The candidate parameter update at scale `s` along the natural-gradient
direction: each coordinate moves by `s` times the direction coordinate. -/
def apply_step (params direction : List ℚ) (s : ℚ) : List ℚ :=
  List.zipWith (fun p d => p - s * d) params direction

/-- Modelled from the spec: the tail of `MAMLTRPO.step` (code not in the
available sources).  Run the backtracking line search from the initial scale
`step`; apply the accepted scale in place, and when no trial is accepted
leave the policy parameters unchanged. -/
def trpo_update (surr kl : ℚ → ℚ) (old_loss max_kl ls_backtrack_ratio : ℚ)
    (ls_max_steps : ℕ) (step : ℚ) (params direction : List ℚ) : List ℚ :=
  match line_search surr kl old_loss max_kl ls_backtrack_ratio
      ls_max_steps step with
  | some s => apply_step params direction s
  | none => params

/-- Modelled from the spec: the maximal trust-region scale
`step = sqrt (2 * max_kl / (x^T H x))` of `MAMLTRPO.step` (code not in the
available sources), with the required short-circuit: a zero or negative
curvature term `x^T H x` yields a zero step instead of a complex or infinite
one. -/
noncomputable def step_scale (xHx max_kl : ℝ) : ℝ :=
  if xHx ≤ 0 then 0 else Real.sqrt (2 * max_kl / xHx)

/- ----------------------------------------------------------------------
   Conjugate-gradient solver (modelled from the spec), over exact
   rational arithmetic.
   ---------------------------------------------------------------------- -/

/-- The loop state of the conjugate-gradient solver: iterate `x`, residual
`r`, and search direction `p`. -/
structure CGState (n : ℕ) : Type where
  x : Fin n → ℚ
  r : Fin n → ℚ
  p : Fin n → ℚ

/-- Modelled from the spec: one iteration of the conjugate-gradient loop of
`conjugate_gradient` in the `maml_rl` package (not in the available
sources), with damping 0 so the Hessian-vector product is `A *ᵥ ·`:
`z = A p`, `v = (r·r)/(p·z)`, `x += v p`, `r -= v z`, `p = r + μ p` with
`μ` the ratio of the new to the old squared residual norm. -/
def cgStep (n : ℕ) (A : Matrix (Fin n) (Fin n) ℚ) (s : CGState n) : CGState n :=
  let z := A.mulVec s.p
  let v := Matrix.dotProduct s.r s.r / Matrix.dotProduct s.p z
  let r' := s.r - v • z
  let mu := Matrix.dotProduct r' r' / Matrix.dotProduct s.r s.r
  { x := s.x + v • s.p
    r := r'
    p := r' + mu • s.p }

/-- The initial conjugate-gradient state for right-hand side `g`:
`x = 0`, `r = p = g`. -/
def cgInit (n : ℕ) (g : Fin n → ℚ) : CGState n :=
  { x := 0, r := g, p := g }

/-- Modelled from the spec: the conjugate-gradient loop with its early exit —
it runs for at most the given iteration count and stops as soon as the
squared residual norm falls below `residual_tol`. -/
def cgLoop (n : ℕ) (A : Matrix (Fin n) (Fin n) ℚ) (residual_tol : ℚ) :
    ℕ → CGState n → CGState n
  | 0, s => s
  | fuel + 1, s =>
      if Matrix.dotProduct s.r s.r < residual_tol then s
      else cgLoop n A residual_tol fuel (cgStep n A s)

/-- Modelled from the spec: `conjugate_gradient(f_Ax, b, cg_iters,
residual_tol)` of the `maml_rl` package (not in the available sources), with
damping 0: the iterate after the early-exiting loop. -/
def conjugate_gradient (n : ℕ) (A : Matrix (Fin n) (Fin n) ℚ) (g : Fin n → ℚ)
    (cg_iters : ℕ) (residual_tol : ℚ) : Fin n → ℚ :=
  (cgLoop n A residual_tol cg_iters (cgInit n g)).x

/-- The conjugate-gradient state after `k` full (never-exiting) iterations. -/
def cgIter (n : ℕ) (A : Matrix (Fin n) (Fin n) ℚ) (g : Fin n → ℚ)
    (k : ℕ) : CGState n :=
  (cgStep n A)^[k] (cgInit n g)

/-- The residual after `k` conjugate-gradient iterations. -/
def cgR (n : ℕ) (A : Matrix (Fin n) (Fin n) ℚ) (g : Fin n → ℚ)
    (k : ℕ) : Fin n → ℚ :=
  (cgIter n A g k).r

/-- The search direction after `k` conjugate-gradient iterations. -/
def cgP (n : ℕ) (A : Matrix (Fin n) (Fin n) ℚ) (g : Fin n → ℚ)
    (k : ℕ) : Fin n → ℚ :=
  (cgIter n A g k).p

/-- The step length `v = (r·r)/(p·Ap)` taken at iteration `k`. -/
def cgAlpha (n : ℕ) (A : Matrix (Fin n) (Fin n) ℚ) (g : Fin n → ℚ)
    (k : ℕ) : ℚ :=
  Matrix.dotProduct (cgR n A g k) (cgR n A g k)
    / Matrix.dotProduct (cgP n A g k) (A.mulVec (cgP n A g k))

/-- The direction-update coefficient `μ` computed at iteration `k`: the ratio
of consecutive squared residual norms. -/
def cgMu (n : ℕ) (A : Matrix (Fin n) (Fin n) ℚ) (g : Fin n → ℚ)
    (k : ℕ) : ℚ :=
  Matrix.dotProduct (cgR n A g (k + 1)) (cgR n A g (k + 1))
    / Matrix.dotProduct (cgR n A g k) (cgR n A g k)

/- ----------------------------------------------------------------------
   The training driver `main` of train.py, as a state-passing embedding.
   ---------------------------------------------------------------------- -/

/-- The externally visible actions of `main` (train.py), in program order.
`collectDone b` marks the point where all rollout collection for outer
iteration `b` has completed (all futures resolved, inside the meta-learner's
step — modelled from the spec); `computeUpdate b` marks the start of the
trust-region update computation for iteration `b`. -/
inductive Event : Type where
  | saveConfig : Event
  | sampleTasks : ℕ → Event
  | sampleAsync : ℕ → ℕ → Event
  | collectDone : ℕ → Event
  | computeUpdate : ℕ → Event
  | sampleWait : ℕ → Event
  | savePolicy : ℕ → Event
  | appendLog : ℕ → Event
  deriving Repr, DecidableEq

/-- The configuration entries of train.py that drive the outer loop. -/
structure Config : Type where
  numBatches : ℕ
  metaBatchSize : ℕ
  deriving Repr

/-- The mutable state of `main` (train.py): the `train_logs` dict, the
contents of the append-mode `train_logs.json` file (one entry per
`json.dump`), how many times `policy.th` and `config.json` were written, the
event trace, and the number of completed outer iterations. -/
structure DriverState : Type where
  trainLogs : PyVal
  logFile : List PyVal
  policySaves : ℕ
  configSaves : ℕ
  events : List Event
  completed : ℕ

/-- The key `"batch_" + str(batch)` under which train.py stores each outer
iteration's logs in `train_logs`. -/
def batchKey (b : ℕ) : String :=
  "batch_" ++ toString b

/-- Assignment of a fresh key in a Python dict (train.py line 87; the keys
`batch_b` are distinct per iteration, so the assignment appends an entry). -/
def dictInsert (d : PyVal) (k : String) (v : PyVal) : PyVal :=
  match d with
  | PyVal.pyDict kvs => PyVal.pyDict (kvs ++ [(k, v)])
  | other => other

/-- The keys of an embedded Python dict. -/
def dictKeys : PyVal → List String
  | PyVal.pyDict kvs => kvs.map Prod.fst
  | _ => []

/-- `os.path.join` as called by train.py: joining from a `None` folder raises
a `TypeError`, joining from a string succeeds. -/
def ospathJoin (folder : Option String) (name : String) : Except String String :=
  match folder with
  | none => Except.error "TypeError"
  | some f => Except.ok (f ++ "/" ++ name)

/-- The events of one body of the outer loop of `main` (train.py lines
64–124) when the output folder is present: sample the meta-batch of tasks,
request the asynchronous collection, run the meta-learner's step (which
first awaits every future — all rollouts collected — and then computes the
trust-region update; modelled from the spec), wait on the futures, save the
policy, and append the log record. -/
def iterEvents (cfg : Config) (b : ℕ) : List Event :=
  [Event.sampleTasks cfg.metaBatchSize,
   Event.sampleAsync b cfg.metaBatchSize,
   Event.collectDone b,
   Event.computeUpdate b,
   Event.sampleWait b,
   Event.savePolicy b,
   Event.appendLog b]

/-- One body of the outer loop of `main` (train.py lines 64–124), at outer
iteration `b`.  `mkLogs b` is the per-iteration logs dict built at lines
73–86 (the meta-learner's diagnostics updated with tasks, iteration counts
and return arrays).  The body stores the logs under `batch_b`, runs
`convert_np_arrays` on `train_logs` (which rewrites the dict in place), saves
the policy when the output folder is present, and then builds the log-file
path — which raises when the output folder is `None` — before appending one
`json.dump` of the whole `train_logs` dict to `train_logs.json`. -/
def runIteration (cfg : Config) (folder : Option String) (mkLogs : ℕ → PyVal)
    (b : ℕ) (s : DriverState) : Except DriverState DriverState :=
  let tl := convert_np_arrays (dictInsert s.trainLogs (batchKey b) (mkLogs b))
  let sPre : DriverState :=
    { s with
      trainLogs := tl
      policySaves := s.policySaves + (if folder.isSome then 1 else 0)
      events := s.events ++
        ([Event.sampleTasks cfg.metaBatchSize,
          Event.sampleAsync b cfg.metaBatchSize,
          Event.collectDone b,
          Event.computeUpdate b,
          Event.sampleWait b] ++
         (if folder.isSome then [Event.savePolicy b] else [])) }
  match ospathJoin folder "train_logs.json" with
  | Except.error _ => Except.error sPre
  | Except.ok _ =>
      Except.ok
        { sPre with
          logFile := sPre.logFile ++ [tl]
          events := sPre.events ++ [Event.appendLog b]
          completed := sPre.completed + 1 }

/-- The outer loop of `main` over the remaining batch indices, stopping at
the first uncaught exception. -/
def runBatches (cfg : Config) (folder : Option String) (mkLogs : ℕ → PyVal) :
    List ℕ → DriverState → Except DriverState DriverState
  | [], s => Except.ok s
  | b :: bs, s =>
      match runIteration cfg folder mkLogs b s with
      | Except.error e => Except.error e
      | Except.ok s' => runBatches cfg folder mkLogs bs s'

/-- The state of `main` before the outer loop (train.py lines 17–62): the
configuration is written to `config.json` exactly when the output folder was
given; `train_logs` starts empty. -/
def initState (folder : Option String) : DriverState :=
  { trainLogs := PyVal.pyDict []
    logFile := []
    policySaves := 0
    configSaves := if folder.isSome then 1 else 0
    events := if folder.isSome then [Event.saveConfig] else []
    completed := 0 }

/-- The driver `main` of train.py: the initialization followed by
`config['num-batches']` outer iterations. -/
def runMain (cfg : Config) (folder : Option String) (mkLogs : ℕ → PyVal) :
    Except DriverState DriverState :=
  runBatches cfg folder mkLogs (List.range cfg.numBatches) (initState folder)

/-- The value of `train_logs` after the first `k` outer iterations: each
iteration assigns its logs dict under the key `batch_b` and then rewrites the
whole dict in place with `convert_np_arrays`. -/
def cumulLogs (mkLogs : ℕ → PyVal) : ℕ → PyVal
  | 0 => PyVal.pyDict []
  | k + 1 => convert_np_arrays (dictInsert (cumulLogs mkLogs k) (batchKey k) (mkLogs k))

end MamlRl

/- ----------------------------------------------------------------------
   Theorems.
   ---------------------------------------------------------------------- -/

namespace MamlRl

/-- C6: For every base parameter vector and every train batch (represented by
the gradient it induces), the one-step fast adaptation with `fast_lr = 0`
returns adapted parameters identical to the base parameters. -/
theorem update_params_zero_lr (params grads : List ℚ)
    (hlen : grads.length = params.length) :
    update_params params grads 0 = params := by
  induction params generalizing grads with
  | nil => simp [update_params]
  | cons p ps ih =>
    cases grads with
    | nil => simp at hlen
    | cons g gs =>
      simp only [update_params, List.zipWith, zero_mul, sub_zero] at *
      exact congrArg (List.cons p) (ih gs (by simpa using hlen))

/-- Witness for C6 at a concrete input. -/
theorem update_params_zero_lr_witness :
    ([(5 : ℚ), 7] : List ℚ).length = ([(1 : ℚ), 2] : List ℚ).length ∧
      update_params [(1 : ℚ), 2] [(5 : ℚ), 7] 0 = [(1 : ℚ), 2] :=
  ⟨by decide, update_params_zero_lr [(1 : ℚ), 2] [(5 : ℚ), 7] (by decide)⟩

/-- C2: `sample_async` followed by `sample_wait` returns a list of train
batches and a list of valid batches whose lengths both equal the number of
requested tasks, and whose per-index task matches the task at the same index
of the input task list (order preserved). -/
theorem sample_wait_aligned (T : Type) (params : List ℚ) (gradOf : T → List ℚ)
    (fast_lr : ℚ) (tasks : List T) :
    (sample_wait T (sample_async T params gradOf fast_lr tasks)).1.length
        = tasks.length
    ∧ (sample_wait T (sample_async T params gradOf fast_lr tasks)).2.length
        = tasks.length
    ∧ (∀ i : ℕ,
        Option.map EpisodeBatch.task
          ((sample_wait T (sample_async T params gradOf fast_lr tasks)).1[i]?)
          = tasks[i]?)
    ∧ (∀ i : ℕ,
        Option.map EpisodeBatch.task
          ((sample_wait T (sample_async T params gradOf fast_lr tasks)).2[i]?)
          = tasks[i]?) := by
  refine ⟨by simp [sample_wait, sample_async], by simp [sample_wait, sample_async],
    fun i => ?_, fun i => ?_⟩ <;>
  · simp only [sample_wait, sample_async, List.map_map, List.getElem?_map]
    cases tasks[i]? <;> simp

/-- C9 (part of the statement): `convert_np_arrays` converts a numpy array to
a plain list when the array is a value of a dictionary, but a numpy array
that is a direct element of a list — and the list around it — keeps the array
unchanged, so converting a list containing a numpy array yields a list that
still contains that very numpy array. -/
theorem convert_np_arrays_spec (k : String) (a : List ℚ)
    (pre post : List PyVal) :
    convert_np_arrays (PyVal.pyDict [(k, PyVal.npArray a)])
        = PyVal.pyDict [(k, PyVal.pyList (a.map PyVal.scalar))]
    ∧ convert_np_arrays (PyVal.npArray a) = PyVal.npArray a
    ∧ convert_np_arrays (PyVal.pyList (pre ++ PyVal.npArray a :: post))
        = PyVal.pyList (convertItems pre ++ PyVal.npArray a :: convertItems post)
    ∧ PyVal.npArray a
        ∈ (convertItems (pre ++ PyVal.npArray a :: post)) := by
  refine ⟨rfl, rfl, ?_, ?_⟩
  · have h : ∀ l₁ l₂ : List PyVal,
        convertItems (l₁ ++ l₂) = convertItems l₁ ++ convertItems l₂ := by
      intro l₁ l₂
      induction l₁ with
      | nil => simp [convertItems]
      | cons x xs ih => simp [convertItems, ih]
    simp [convert_np_arrays, h, convertItems]
  · have h : ∀ l₁ l₂ : List PyVal,
        convertItems (l₁ ++ l₂) = convertItems l₁ ++ convertItems l₂ := by
      intro l₁ l₂
      induction l₁ with
      | nil => simp [convertItems]
      | cons x xs ih => simp [convertItems, ih]
    rw [h]
    simp [convertItems, convert_np_arrays]

/-- Helper: a successful line search returns the first accepted scale of the
geometric trial sequence `step * ratio ^ k`. -/
theorem line_search_some (surr kl : ℚ → ℚ) (old_loss max_kl ratio : ℚ) :
    ∀ (n : ℕ) (s s' : ℚ),
      line_search surr kl old_loss max_kl ratio n s = some s' →
      ∃ k, k < n ∧ s' = s * ratio ^ k
        ∧ lsAccept surr kl old_loss max_kl s' = true
        ∧ ∀ j, j < k →
            lsAccept surr kl old_loss max_kl (s * ratio ^ j) = false := by
  intro n
  induction n with
  | zero => intro s s' h; simp [line_search] at h
  | succ n ih =>
    intro s s' h
    cases hacc : lsAccept surr kl old_loss max_kl s with
    | true =>
      simp only [line_search, hacc, if_pos, Option.some.injEq] at h
      refine ⟨0, Nat.succ_pos n, ?_, ?_, ?_⟩
      · rw [← h]; ring
      · rw [← h]; exact hacc
      · intro j hj; exact absurd hj (Nat.not_lt_zero j)
    | false =>
      simp only [line_search, hacc, Bool.false_eq_true, if_false] at h
      obtain ⟨k, hk, hs, hacck, hprev⟩ := ih (s * ratio) s' h
      refine ⟨k + 1, Nat.succ_lt_succ hk, ?_, hacck, ?_⟩
      · rw [hs]; ring
      · intro j hj
        cases j with
        | zero => simpa using hacc
        | succ j =>
          have hj' := hprev j (Nat.lt_of_succ_lt_succ hj)
          rw [show s * ratio ^ (j + 1) = s * ratio * ratio ^ j by ring]
          exact hj'

/-- Helper: an exhausted line search rejected every scale of the geometric
trial sequence. -/
theorem line_search_none (surr kl : ℚ → ℚ) (old_loss max_kl ratio : ℚ) :
    ∀ (n : ℕ) (s : ℚ),
      line_search surr kl old_loss max_kl ratio n s = none →
      ∀ k, k < n →
        lsAccept surr kl old_loss max_kl (s * ratio ^ k) = false := by
  intro n
  induction n with
  | zero => intro s _ k hk; exact absurd hk (Nat.not_lt_zero k)
  | succ n ih =>
    intro s h k hk
    cases hacc : lsAccept surr kl old_loss max_kl s with
    | true => simp [line_search, hacc] at h
    | false =>
      have h' : line_search surr kl old_loss max_kl ratio n (s * ratio) = none := by
        simpa [line_search, hacc] using h
      cases k with
      | zero => simpa using hacc
      | succ k =>
        have hj' := ih (s * ratio) h' k (Nat.lt_of_succ_lt_succ hk)
        rw [show s * ratio ^ (k + 1) = s * ratio * ratio ^ k by ring]
        exact hj'

/-- C1: For every call to the meta-learner's step, the backtracking line
search starts from the maximal trust-region scale `step` and geometrically
shrinks it by `ls_backtrack_ratio` for at most `ls_max_steps` trials: a
returned scale is the first trial `step * ratio ^ k` whose surrogate
objective strictly improves over the pre-update value and whose realized
mean KL divergence is at most `max_kl`, and in that case the update applies
that scale; when no trial satisfies both conditions the policy parameters
after the step are identical to the parameters before it. -/
theorem trpo_line_search_spec (surr kl : ℚ → ℚ)
    (old_loss max_kl ratio step : ℚ) (ls_max_steps : ℕ)
    (params direction : List ℚ) :
    (∀ s, line_search surr kl old_loss max_kl ratio ls_max_steps step = some s →
        trpo_update surr kl old_loss max_kl ratio ls_max_steps step
            params direction = apply_step params direction s
        ∧ ∃ k, k < ls_max_steps ∧ s = step * ratio ^ k
          ∧ lsAccept surr kl old_loss max_kl s = true
          ∧ ∀ j, j < k →
              lsAccept surr kl old_loss max_kl (step * ratio ^ j) = false)
    ∧ (line_search surr kl old_loss max_kl ratio ls_max_steps step = none →
        (∀ k, k < ls_max_steps →
            lsAccept surr kl old_loss max_kl (step * ratio ^ k) = false)
        ∧ trpo_update surr kl old_loss max_kl ratio ls_max_steps step
            params direction = params) := by
  constructor
  · intro s hs
    refine ⟨?_, line_search_some surr kl old_loss max_kl ratio ls_max_steps step s hs⟩
    simp [trpo_update, hs]
  · intro h
    exact ⟨line_search_none surr kl old_loss max_kl ratio ls_max_steps step h,
      by simp [trpo_update, h]⟩

/-- Witness for C1 at a concrete input: a constant improving surrogate with
zero KL is accepted at the very first trial scale. -/
theorem trpo_line_search_spec_witness :
    (line_search (fun _ => (-1 : ℚ)) (fun _ => (0 : ℚ)) 0 (1/100) (1/2) 5 1
        = some 1)
    ∧ (trpo_update (fun _ => (-1 : ℚ)) (fun _ => (0 : ℚ)) 0 (1/100) (1/2) 5 1
          [10] [4] = apply_step [10] [4] 1
      ∧ ∃ k, k < 5 ∧ (1 : ℚ) = 1 * (1/2) ^ k
        ∧ lsAccept (fun _ => (-1 : ℚ)) (fun _ => (0 : ℚ)) 0 (1/100) 1 = true
        ∧ ∀ j, j < k → lsAccept (fun _ => (-1 : ℚ)) (fun _ => (0 : ℚ)) 0 (1/100)
            (1 * (1/2) ^ j) = false) :=
  ⟨by simp [line_search, lsAccept],
    (trpo_line_search_spec (fun _ => (-1 : ℚ)) (fun _ => (0 : ℚ)) 0 (1/100)
      (1/2) 1 5 [10] [4]).1 1 (by simp [line_search, lsAccept])⟩

/-- Helper: with initial scale `0` and the surrogate at scale `0` equal to
the pre-update value (scale `0` does not move the parameters), no
line-search trial is ever accepted. -/
theorem line_search_zero_step (surr kl : ℚ → ℚ) (old_loss max_kl ratio : ℚ)
    (hsurr : surr 0 = old_loss) :
    ∀ n, line_search surr kl old_loss max_kl ratio n 0 = none := by
  intro n
  induction n with
  | zero => rfl
  | succ n ih =>
    have hacc : lsAccept surr kl old_loss max_kl 0 = false := by
      simp [lsAccept, hsurr]
    simp [line_search, hacc, ih]

/-- C5: Whenever the curvature term `x^T H x` computed for the trust-region
step size is zero or negative, the step-size computation yields a zero step,
the update is rejected (parameters unchanged, since the scale-0 candidate
cannot strictly improve the surrogate), and the step scale is always a
nonnegative real — never complex or infinite. -/
theorem step_scale_nonpos_curvature (xHx max_kl : ℝ) (surr kl : ℚ → ℚ)
    (old_loss max_kl' ratio : ℚ) (ls_max_steps : ℕ)
    (params direction : List ℚ)
    (hx : xHx ≤ 0) (hsurr : surr 0 = old_loss) :
    step_scale xHx max_kl = 0
    ∧ trpo_update surr kl old_loss max_kl' ratio ls_max_steps 0
        params direction = params
    ∧ ∀ a b : ℝ, 0 ≤ step_scale a b := by
  refine ⟨by simp [step_scale, hx], ?_, ?_⟩
  · simp [trpo_update, line_search_zero_step surr kl old_loss max_kl' ratio hsurr]
  · intro a b
    unfold step_scale
    split
    · exact le_refl 0
    · exact Real.sqrt_nonneg _

/-- Helper: one loop body with an output folder present performs the full
iteration: it saves the policy, appends one record, and completes. -/
theorem runIteration_ok (cfg : Config) (f : String) (mkLogs : ℕ → PyVal)
    (b : ℕ) (s : DriverState) :
    runIteration cfg (some f) mkLogs b s = Except.ok
      { trainLogs := convert_np_arrays (dictInsert s.trainLogs (batchKey b) (mkLogs b))
        logFile := s.logFile ++
          [convert_np_arrays (dictInsert s.trainLogs (batchKey b) (mkLogs b))]
        policySaves := s.policySaves + 1
        configSaves := s.configSaves
        events := s.events ++ iterEvents cfg b
        completed := s.completed + 1 } := by
  simp [runIteration, ospathJoin, iterEvents]

/-- Helper: running the loop over the contiguous index range `range' a k` from
a state whose `train_logs` already holds the first `a` iterations succeeds
and extends every component of the state in order. -/
theorem runBatches_range_ok (cfg : Config) (f : String) (mkLogs : ℕ → PyVal) :
    ∀ (k a : ℕ) (s : DriverState), s.trainLogs = cumulLogs mkLogs a →
      ∃ s', runBatches cfg (some f) mkLogs (List.range' a k) s = Except.ok s'
      ∧ s'.events = s.events ++ (List.range' a k).flatMap (iterEvents cfg)
      ∧ s'.completed = s.completed + k
      ∧ s'.policySaves = s.policySaves + k
      ∧ s'.configSaves = s.configSaves
      ∧ s'.logFile = s.logFile ++
          (List.range' a k).map (fun j => cumulLogs mkLogs (j + 1))
      ∧ s'.trainLogs = cumulLogs mkLogs (a + k) := by
  intro k
  induction k with
  | zero =>
    intro a s hs
    exact ⟨s, rfl, by simp [List.range'], by simp, by simp, rfl,
      by simp [List.range'], by simpa using hs⟩
  | succ k ih =>
    intro a s hs
    have hof : List.range' a (k + 1) = a :: List.range' (a + 1) k :=
      List.range'_succ a k 1
    rw [hof]
    have hs1tl : (convert_np_arrays (dictInsert s.trainLogs (batchKey a) (mkLogs a)))
        = cumulLogs mkLogs (a + 1) := by
      rw [hs]; rfl
    obtain ⟨s', h1, h2, h3, h4, h5, h6, h7⟩ := ih (a + 1)
      { trainLogs := convert_np_arrays (dictInsert s.trainLogs (batchKey a) (mkLogs a))
        logFile := s.logFile ++
          [convert_np_arrays (dictInsert s.trainLogs (batchKey a) (mkLogs a))]
        policySaves := s.policySaves + 1
        configSaves := s.configSaves
        events := s.events ++ iterEvents cfg a
        completed := s.completed + 1 } hs1tl
    have hstep : runBatches cfg (some f) mkLogs (a :: List.range' (a + 1) k) s
        = Except.ok s' := by
      simp only [runBatches, runIteration_ok cfg f mkLogs a s]
      exact h1
    refine ⟨s', hstep, ?_, ?_, ?_, ?_, ?_, ?_⟩
    · rw [h2]; simp [List.flatMap_cons, List.append_assoc]
    · rw [h3]; simp; omega
    · rw [h4]; simp; omega
    · rw [h5]
    · rw [h6]; simp [List.map_cons, List.append_assoc, hs1tl]
    · rw [h7]; congr 1; omega

/-- Helper: the whole driver with an output folder present: the final state
after `num-batches` iterations. -/
theorem runMain_ok (cfg : Config) (f : String) (mkLogs : ℕ → PyVal) :
    ∃ s, runMain cfg (some f) mkLogs = Except.ok s
    ∧ s.events = Event.saveConfig ::
        (List.range cfg.numBatches).flatMap (iterEvents cfg)
    ∧ s.completed = cfg.numBatches
    ∧ s.policySaves = cfg.numBatches
    ∧ s.configSaves = 1
    ∧ s.logFile = (List.range cfg.numBatches).map (fun j => cumulLogs mkLogs (j + 1))
    ∧ s.trainLogs = cumulLogs mkLogs cfg.numBatches := by
  obtain ⟨s, h1, h2, h3, h4, h5, h6, h7⟩ :=
    runBatches_range_ok cfg f mkLogs cfg.numBatches 0 (initState (some f)) rfl
  refine ⟨s, ?_, ?_, ?_, ?_, ?_, ?_, ?_⟩
  · rw [runMain, List.range_eq_range']; exact h1
  · rw [h2, List.range_eq_range']; rfl
  · rw [h3]; simp [initState]
  · rw [h4]; simp [initState]
  · rw [h5]; rfl
  · rw [h6, List.range_eq_range']; rfl
  · rw [h7]; congr 1; omega

/-- Helper: every `sampleTasks` event of the loop requests the meta-batch
size. -/
theorem mem_sampleTasks_flatMap (cfg : Config) :
    ∀ (l : List ℕ) (n : ℕ),
      Event.sampleTasks n ∈ l.flatMap (iterEvents cfg) → n = cfg.metaBatchSize := by
  intro l
  induction l with
  | nil => intro n h; simp at h
  | cons b bs ih =>
    intro n h
    rw [List.flatMap_cons, List.mem_append] at h
    cases h with
    | inl h => simp [iterEvents] at h; exact h
    | inr h => exact ih n h

/-- Helper: the loop over `l` emits one `sampleTasks` event per element. -/
theorem count_sampleTasks_flatMap (cfg : Config) :
    ∀ l : List ℕ,
      (l.flatMap (iterEvents cfg)).count (Event.sampleTasks cfg.metaBatchSize)
        = l.length := by
  intro l
  induction l with
  | nil => rfl
  | cons b bs ih =>
    rw [List.flatMap_cons, List.count_append, ih]
    simp [iterEvents, List.count_cons]
    omega

/-- Helper: the loop over distinct indices emits exactly one `sampleAsync`
request per index in the list, none otherwise. -/
theorem count_sampleAsync_flatMap (cfg : Config) (b : ℕ) :
    ∀ l : List ℕ, l.Nodup →
      (l.flatMap (iterEvents cfg)).count (Event.sampleAsync b cfg.metaBatchSize)
        = if b ∈ l then 1 else 0 := by
  intro l
  induction l with
  | nil => intro _; simp
  | cons a as ih =>
    intro hnd
    obtain ⟨ha, hnd'⟩ := List.nodup_cons.mp hnd
    rw [List.flatMap_cons, List.count_append, ih hnd']
    have h1 : (iterEvents cfg a).count (Event.sampleAsync b cfg.metaBatchSize)
        = if a = b then 1 else 0 := by
      by_cases hab : a = b <;> simp [iterEvents, List.count_cons, hab]
    rw [h1]
    by_cases hab : a = b
    · subst hab; simp [ha]
    · by_cases hb : b ∈ as <;> simp [hab, hb, Ne.symm hab]

/-- Helper: the loop over distinct indices emits exactly one `computeUpdate`
(meta-parameter update) per index in the list, none otherwise. -/
theorem count_computeUpdate_flatMap (cfg : Config) (b : ℕ) :
    ∀ l : List ℕ, l.Nodup →
      (l.flatMap (iterEvents cfg)).count (Event.computeUpdate b)
        = if b ∈ l then 1 else 0 := by
  intro l
  induction l with
  | nil => intro _; simp
  | cons a as ih =>
    intro hnd
    obtain ⟨ha, hnd'⟩ := List.nodup_cons.mp hnd
    rw [List.flatMap_cons, List.count_append, ih hnd']
    have h1 : (iterEvents cfg a).count (Event.computeUpdate b)
        = if a = b then 1 else 0 := by
      by_cases hab : a = b <;> simp [iterEvents, List.count_cons, hab]
    rw [h1]
    by_cases hab : a = b
    · subst hab; simp [ha]
    · by_cases hb : b ∈ as <;> simp [hab, hb, Ne.symm hab]

/-- Helper: a `collectDone b` event only arises from iteration `b`. -/
theorem mem_collectDone_flatMap (cfg : Config) :
    ∀ (l : List ℕ) (b : ℕ),
      Event.collectDone b ∈ l.flatMap (iterEvents cfg) → b ∈ l := by
  intro l
  induction l with
  | nil => intro b h; simp at h
  | cons a as ih =>
    intro b h
    rw [List.flatMap_cons, List.mem_append] at h
    cases h with
    | inl h => simp [iterEvents] at h; simp [h]
    | inr h => exact List.mem_cons_of_mem a (ih b h)

/-- Helper: a `computeUpdate b` event only arises from iteration `b`. -/
theorem mem_computeUpdate_flatMap (cfg : Config) :
    ∀ (l : List ℕ) (b : ℕ),
      Event.computeUpdate b ∈ l.flatMap (iterEvents cfg) → b ∈ l := by
  intro l
  induction l with
  | nil => intro b h; simp at h
  | cons a as ih =>
    intro b h
    rw [List.flatMap_cons, List.mem_append] at h
    cases h with
    | inl h => simp [iterEvents] at h; simp [h]
    | inr h => exact List.mem_cons_of_mem a (ih b h)

/-- Helper: rewriting a dict's values with `convert_np_arrays` leaves its
keys unchanged. -/
theorem convertEntries_keys :
    ∀ kvs : List (String × PyVal),
      (convertEntries kvs).map Prod.fst = kvs.map Prod.fst := by
  intro kvs
  induction kvs with
  | nil => rfl
  | cons kv rest ih =>
    obtain ⟨k, v⟩ := kv
    cases v <;> simp [convertEntries, ih]

/-- Helper: after `k` iterations `train_logs` is a dict with exactly the keys
`batch_0 … batch_(k-1)`, in insertion order. -/
theorem cumulLogs_keys (mkLogs : ℕ → PyVal) :
    ∀ k, ∃ kvs, cumulLogs mkLogs k = PyVal.pyDict kvs
      ∧ kvs.map Prod.fst = (List.range k).map batchKey := by
  intro k
  induction k with
  | zero => exact ⟨[], rfl, by simp⟩
  | succ k ih =>
    obtain ⟨kvs, hk, hkeys⟩ := ih
    refine ⟨convertEntries (kvs ++ [(batchKey k, mkLogs k)]), ?_, ?_⟩
    · rw [cumulLogs, hk]; rfl
    · rw [convertEntries_keys]
      simp [hkeys, List.range_succ]

/-- C3: The training driver performs exactly `config['num-batches']` outer
iterations; its event trace is the per-iteration blocks in order, each block
sampling exactly `config['meta-batch-size']` tasks (every `sampleTasks`
event requests that size and there is one per iteration), requesting exactly
one asynchronous collection per iteration, and performing exactly one
meta-learner step per iteration — which, by the block ordering, happens
before the next iteration's sampling. -/
theorem driver_loop_structure (cfg : Config) (f : String) (mkLogs : ℕ → PyVal) :
    ∃ s, runMain cfg (some f) mkLogs = Except.ok s
    ∧ s.events = Event.saveConfig ::
        (List.range cfg.numBatches).flatMap (iterEvents cfg)
    ∧ s.completed = cfg.numBatches
    ∧ (∀ n, Event.sampleTasks n ∈ s.events → n = cfg.metaBatchSize)
    ∧ s.events.count (Event.sampleTasks cfg.metaBatchSize) = cfg.numBatches
    ∧ (∀ b, s.events.count (Event.sampleAsync b cfg.metaBatchSize)
        = if b < cfg.numBatches then 1 else 0)
    ∧ (∀ b, s.events.count (Event.computeUpdate b)
        = if b < cfg.numBatches then 1 else 0) := by
  obtain ⟨s, h1, h2, h3, _h4, _h5, _h6, _h7⟩ := runMain_ok cfg f mkLogs
  refine ⟨s, h1, h2, h3, ?_, ?_, ?_, ?_⟩
  · intro n hn
    rw [h2, List.mem_cons] at hn
    cases hn with
    | inl h => simp at h
    | inr h => exact mem_sampleTasks_flatMap cfg _ n h
  · rw [h2, List.count_cons]
    rw [count_sampleTasks_flatMap cfg]
    simp
  · intro b
    rw [h2, List.count_cons,
      count_sampleAsync_flatMap cfg b _ (List.nodup_range cfg.numBatches)]
    simp [List.mem_range]
  · intro b
    rw [h2, List.count_cons,
      count_computeUpdate_flatMap cfg b _ (List.nodup_range cfg.numBatches)]
    simp [List.mem_range]

/-- C4: In every outer iteration the completion of all rollout collection
(`collectDone`, the await of every future inside the meta-learner's step)
immediately precedes the start of the trust-region update computation
(`computeUpdate`) in the driver's trace, and neither event recurs elsewhere
for that iteration: the gather-data phase is separated from the
compute-update phase by a hard barrier. -/
theorem gather_before_update (cfg : Config) (f : String) (mkLogs : ℕ → PyVal)
    (b : ℕ) (hb : b < cfg.numBatches) :
    ∃ s, runMain cfg (some f) mkLogs = Except.ok s
    ∧ ∃ pre post,
        s.events = pre ++ Event.collectDone b :: Event.computeUpdate b :: post
        ∧ Event.collectDone b ∉ post
        ∧ Event.computeUpdate b ∉ pre := by
  obtain ⟨s, h1, h2, _⟩ := runMain_ok cfg f mkLogs
  refine ⟨s, h1, ?_⟩
  have hsplit : List.range cfg.numBatches
      = List.range' 0 b ++ b :: List.range' (b + 1) (cfg.numBatches - b - 1) := by
    rw [List.range_eq_range']
    have hadd : List.range' 0 b ++ List.range' (0 + 1 * b) (cfg.numBatches - b) 1
        = List.range' 0 (cfg.numBatches - b + b) := List.range'_append 0 b _ 1
    have hn : cfg.numBatches - b + b = cfg.numBatches := by omega
    rw [hn] at hadd
    rw [← hadd]
    have hb1 : cfg.numBatches - b = (cfg.numBatches - b - 1) + 1 := by omega
    rw [hb1, List.range'_succ]
    norm_num
  refine ⟨Event.saveConfig :: ((List.range' 0 b).flatMap (iterEvents cfg)
      ++ [Event.sampleTasks cfg.metaBatchSize,
          Event.sampleAsync b cfg.metaBatchSize]),
    [Event.sampleWait b, Event.savePolicy b, Event.appendLog b]
      ++ (List.range' (b + 1) (cfg.numBatches - b - 1)).flatMap (iterEvents cfg),
    ?_, ?_, ?_⟩
  · rw [h2, hsplit]
    simp [iterEvents, List.flatMap_append, List.flatMap_cons, List.append_assoc]
  · intro hmem
    rw [List.mem_append] at hmem
    cases hmem with
    | inl h => simp at h
    | inr h =>
      have hbmem := mem_collectDone_flatMap cfg _ b h
      rw [List.mem_range'_1] at hbmem
      omega
  · intro hmem
    rw [List.mem_cons, List.mem_append] at hmem
    rcases hmem with h | h | h
    · simp at h
    · have hbmem := mem_computeUpdate_flatMap cfg _ b h
      rw [List.mem_range'_1] at hbmem
      omega
    · simp at h

/-- Witness for C4 at a concrete input. -/
theorem gather_before_update_witness :
    0 < (Config.mk 2 3).numBatches
    ∧ (∃ s, runMain (Config.mk 2 3) (some "out") (fun _ => PyVal.pyDict [])
          = Except.ok s
      ∧ ∃ pre post,
          s.events = pre ++ Event.collectDone 0 :: Event.computeUpdate 0 :: post
          ∧ Event.collectDone 0 ∉ post
          ∧ Event.computeUpdate 0 ∉ pre) :=
  ⟨by decide,
    gather_before_update (Config.mk 2 3) "out" (fun _ => PyVal.pyDict []) 0
      (by decide)⟩

/-- Helper: the dot product of a nonzero rational vector with itself is
positive. -/
theorem dotProduct_self_pos (m : ℕ) (u : Fin m → ℚ) (hu : u ≠ 0) :
    0 < Matrix.dotProduct u u := by
  have h0 : 0 ≤ Matrix.dotProduct u u := by
    rw [Matrix.dotProduct]
    exact Finset.sum_nonneg fun i _ => mul_self_nonneg (u i)
  rcases eq_or_lt_of_le h0 with heq | hlt
  · exact absurd (Matrix.dotProduct_self_eq_zero.mp heq.symm) hu
  · exact hlt

/-- Helper: the dot product is additive in a finite sum of left factors. -/
theorem sum_dotProduct_eq (m k : ℕ) (f : Fin k → Fin m → ℚ) (w : Fin m → ℚ) :
    Matrix.dotProduct (∑ i, f i) w = ∑ i, Matrix.dotProduct (f i) w := by
  simp only [Matrix.dotProduct, Finset.sum_apply, Finset.sum_mul]
  exact Finset.sum_comm

/-- Helper: the residual and direction at step 0 are the right-hand side. -/
theorem cgR_zero_eq (n : ℕ) (A : Matrix (Fin n) (Fin n) ℚ) (g : Fin n → ℚ) :
    cgR n A g 0 = g := rfl

/-- Helper: the direction at step 0 is the right-hand side. -/
theorem cgP_zero_eq (n : ℕ) (A : Matrix (Fin n) (Fin n) ℚ) (g : Fin n → ℚ) :
    cgP n A g 0 = g := rfl

/-- Helper: unfolding one conjugate-gradient iteration. -/
theorem cgIter_succ (n : ℕ) (A : Matrix (Fin n) (Fin n) ℚ) (g : Fin n → ℚ)
    (k : ℕ) :
    cgIter n A g (k + 1) = cgStep n A (cgIter n A g k) :=
  Function.iterate_succ_apply' (cgStep n A) k (cgInit n g)

/-- Helper: the residual recurrence `r_(k+1) = r_k - α_k A p_k`. -/
theorem cgR_succ (n : ℕ) (A : Matrix (Fin n) (Fin n) ℚ) (g : Fin n → ℚ)
    (k : ℕ) :
    cgR n A g (k + 1)
      = cgR n A g k - cgAlpha n A g k • A.mulVec (cgP n A g k) := by
  simp only [cgR, cgAlpha, cgP, cgIter_succ]
  rfl

/-- Helper: the direction recurrence `p_(k+1) = r_(k+1) + μ_k p_k`. -/
theorem cgP_succ (n : ℕ) (A : Matrix (Fin n) (Fin n) ℚ) (g : Fin n → ℚ)
    (k : ℕ) :
    cgP n A g (k + 1)
      = cgR n A g (k + 1) + cgMu n A g k • cgP n A g k := by
  simp only [cgP, cgR, cgMu, cgIter_succ]
  rfl

/-- Helper: the iterate recurrence `x_(k+1) = x_k + α_k p_k`. -/
theorem cgX_succ (n : ℕ) (A : Matrix (Fin n) (Fin n) ℚ) (g : Fin n → ℚ)
    (k : ℕ) :
    (cgIter n A g (k + 1)).x
      = (cgIter n A g k).x + cgAlpha n A g k • cgP n A g k := by
  simp only [cgAlpha, cgR, cgP, cgIter_succ]
  rfl

/-- Helper: at every iteration the residual is exactly `g - A x`. -/
theorem cgR_eq_residual (n : ℕ) (A : Matrix (Fin n) (Fin n) ℚ) (g : Fin n → ℚ) :
    ∀ k, cgR n A g k = g - A.mulVec ((cgIter n A g k).x) := by
  intro k
  induction k with
  | zero =>
    simp [cgR, cgIter, cgInit, Matrix.mulVec_zero]
  | succ k ih =>
    rw [cgR_succ, cgX_succ, ih, Matrix.mulVec_add, Matrix.mulVec_smul,
      sub_add_eq_sub_sub]

/-- Helper: the classical conjugate-gradient invariants, by simultaneous
induction.  As long as all earlier residuals are nonzero: (1) residuals are
pairwise orthogonal, (2) directions are pairwise `A`-conjugate, (3) each
residual is orthogonal to all earlier directions, and (4) `r_i·p_i =
r_i·r_i`. -/
theorem cg_invariants (n : ℕ) (A : Matrix (Fin n) (Fin n) ℚ) (g : Fin n → ℚ)
    (hsym : ∀ u w, Matrix.dotProduct (A.mulVec u) w
      = Matrix.dotProduct u (A.mulVec w))
    (hpos : ∀ u, u ≠ 0 → 0 < Matrix.dotProduct u (A.mulVec u)) :
    ∀ k, (∀ j, j < k → cgR n A g j ≠ 0) →
      (∀ i j, i < j → j ≤ k →
        Matrix.dotProduct (cgR n A g i) (cgR n A g j) = 0)
      ∧ (∀ i j, i ≤ k → j ≤ k → i ≠ j →
        Matrix.dotProduct (cgP n A g i) (A.mulVec (cgP n A g j)) = 0)
      ∧ (∀ i j, i < j → j ≤ k →
        Matrix.dotProduct (cgR n A g j) (cgP n A g i) = 0)
      ∧ (∀ i, i ≤ k →
        Matrix.dotProduct (cgR n A g i) (cgP n A g i)
          = Matrix.dotProduct (cgR n A g i) (cgR n A g i)) := by
  intro k
  induction k with
  | zero =>
    intro _
    refine ⟨?_, ?_, ?_, ?_⟩
    · intro i j hij hj; omega
    · intro i j hi hj hne; omega
    · intro i j hij hj; omega
    · intro i hi
      have hi0 : i = 0 := by omega
      subst hi0
      rfl
  | succ k ih =>
    intro hnz
    obtain ⟨O, C, RP, D⟩ := ih (fun j hj => hnz j (by omega))
    have hRz : ∀ j, j ≤ k → cgR n A g j ≠ 0 := fun j hj => hnz j (by omega)
    have hrr : ∀ j, j ≤ k →
        0 < Matrix.dotProduct (cgR n A g j) (cgR n A g j) :=
      fun j hj => dotProduct_self_pos n (cgR n A g j) (hRz j hj)
    have hPz : ∀ j, j ≤ k → cgP n A g j ≠ 0 := by
      intro j hj hP0
      have hD := D j hj
      rw [hP0, Matrix.dotProduct_zero] at hD
      exact (ne_of_lt (hrr j hj)) hD
    have hpAp : ∀ j, j ≤ k →
        0 < Matrix.dotProduct (cgP n A g j) (A.mulVec (cgP n A g j)) :=
      fun j hj => hpos (cgP n A g j) (hPz j hj)
    have halpha : ∀ j, j ≤ k → cgAlpha n A g j ≠ 0 := by
      intro j hj
      rw [cgAlpha]
      exact div_ne_zero (ne_of_gt (hrr j hj)) (ne_of_gt (hpAp j hj))
    have hAP : ∀ j, j ≤ k → A.mulVec (cgP n A g j)
        = (cgAlpha n A g j)⁻¹ • (cgR n A g j - cgR n A g (j + 1)) := by
      intro j hj
      have h1 : cgR n A g j - cgR n A g (j + 1)
          = cgAlpha n A g j • A.mulVec (cgP n A g j) := by
        rw [cgR_succ, sub_sub_cancel]
      rw [h1, smul_smul, inv_mul_cancel₀ (halpha j hj), one_smul]
    have RP' : ∀ i, i < k + 1 →
        Matrix.dotProduct (cgR n A g (k + 1)) (cgP n A g i) = 0 := by
      intro i hi
      have hik : i ≤ k := by omega
      rw [cgR_succ, Matrix.sub_dotProduct, Matrix.smul_dotProduct]
      rcases Nat.lt_or_ge i k with hlt | hge
      · have h1 : Matrix.dotProduct (cgR n A g k) (cgP n A g i) = 0 :=
          RP i k hlt (le_refl k)
        have h2 : Matrix.dotProduct (A.mulVec (cgP n A g k)) (cgP n A g i) = 0 := by
          rw [hsym]
          exact C k i (le_refl k) hik (by omega)
        rw [h1, h2]
        simp
      · have hik' : i = k := by omega
        subst hik'
        rw [D i (le_refl i)]
        rw [Matrix.dotProduct_comm (A.mulVec (cgP n A g i)) (cgP n A g i)]
        rw [cgAlpha, smul_eq_mul,
          div_mul_cancel₀ _ (ne_of_gt (hpAp i (le_refl i)))]
        exact sub_self _
    have O' : ∀ i j, i < j → j ≤ k + 1 →
        Matrix.dotProduct (cgR n A g i) (cgR n A g j) = 0 := by
      intro i j hij hj
      rcases Nat.lt_or_ge j (k + 1) with hjk | hjk
      · exact O i j hij (by omega)
      · have hj' : j = k + 1 := by omega
        subst hj'
        have hik : i ≤ k := by omega
        rw [Matrix.dotProduct_comm]
        cases i with
        | zero =>
          rw [cgR_zero_eq, ← cgP_zero_eq n A g]
          exact RP' 0 (by omega)
        | succ m =>
          have hm : cgR n A g (m + 1)
              = cgP n A g (m + 1) - cgMu n A g m • cgP n A g m := by
            rw [cgP_succ, add_sub_cancel_right]
          rw [hm, Matrix.dotProduct_sub, Matrix.dotProduct_smul]
          rw [RP' (m + 1) (by omega), RP' m (by omega)]
          simp
    have D' : ∀ i, i ≤ k + 1 →
        Matrix.dotProduct (cgR n A g i) (cgP n A g i)
          = Matrix.dotProduct (cgR n A g i) (cgR n A g i) := by
      intro i hi
      rcases Nat.lt_or_ge i (k + 1) with hik | hik
      · exact D i (by omega)
      · have hi' : i = k + 1 := by omega
        subst hi'
        rw [cgP_succ, Matrix.dotProduct_add, Matrix.dotProduct_smul,
          RP' k (by omega)]
        simp
    have X : ∀ i, i ≤ k →
        Matrix.dotProduct (cgP n A g (k + 1)) (A.mulVec (cgP n A g i)) = 0 := by
      intro i hik
      rw [cgP_succ, Matrix.add_dotProduct, Matrix.smul_dotProduct]
      rcases Nat.lt_or_ge i k with hlt | hge
      · have h2 : Matrix.dotProduct (cgP n A g k) (A.mulVec (cgP n A g i)) = 0 :=
          C k i (le_refl k) (by omega) (by omega)
        have h1 : Matrix.dotProduct (cgR n A g (k + 1)) (A.mulVec (cgP n A g i)) = 0 := by
          rw [hAP i (by omega), Matrix.dotProduct_smul, Matrix.dotProduct_sub]
          have ha : Matrix.dotProduct (cgR n A g (k + 1)) (cgR n A g i) = 0 := by
            rw [Matrix.dotProduct_comm]
            exact O' i (k + 1) (by omega) (le_refl _)
          have hb : Matrix.dotProduct (cgR n A g (k + 1)) (cgR n A g (i + 1)) = 0 := by
            rw [Matrix.dotProduct_comm]
            exact O' (i + 1) (k + 1) (by omega) (le_refl _)
          rw [ha, hb]
          simp
        rw [h1, h2]
        simp
      · have hik' : i = k := by omega
        subst hik'
        have h1 : Matrix.dotProduct (cgR n A g (i + 1)) (A.mulVec (cgP n A g i))
            = (cgAlpha n A g i)⁻¹
              * (0 - Matrix.dotProduct (cgR n A g (i + 1)) (cgR n A g (i + 1))) := by
          rw [hAP i (le_refl i), Matrix.dotProduct_smul, Matrix.dotProduct_sub]
          have ha : Matrix.dotProduct (cgR n A g (i + 1)) (cgR n A g i) = 0 := by
            rw [Matrix.dotProduct_comm]
            exact O' i (i + 1) (by omega) (le_refl _)
          rw [ha, smul_eq_mul]
        rw [h1, cgMu, cgAlpha, smul_eq_mul]
        have hp' : Matrix.dotProduct (cgP n A g i) (A.mulVec (cgP n A g i)) ≠ 0 :=
          ne_of_gt (hpAp i (le_refl i))
        have hr' : Matrix.dotProduct (cgR n A g i) (cgR n A g i) ≠ 0 :=
          ne_of_gt (hrr i (le_refl i))
        field_simp
        ring
    have C' : ∀ i j, i ≤ k + 1 → j ≤ k + 1 → i ≠ j →
        Matrix.dotProduct (cgP n A g i) (A.mulVec (cgP n A g j)) = 0 := by
      intro i j hi hj hne
      rcases Nat.lt_or_ge i (k + 1) with hik | hik
      · rcases Nat.lt_or_ge j (k + 1) with hjk | hjk
        · exact C i j (by omega) (by omega) hne
        · have hj' : j = k + 1 := by omega
          subst hj'
          rw [Matrix.dotProduct_comm (cgP n A g i) (A.mulVec (cgP n A g (k + 1))),
            hsym]
          exact X i (by omega)
      · have hi' : i = k + 1 := by omega
        subst hi'
        exact X j (by omega)
    have RPfull : ∀ i j, i < j → j ≤ k + 1 →
        Matrix.dotProduct (cgR n A g j) (cgP n A g i) = 0 := by
      intro i j hij hj
      rcases Nat.lt_or_ge j (k + 1) with hjk | hjk
      · exact RP i j hij (by omega)
      · have hj' : j = k + 1 := by omega
        subst hj'
        exact RP' i (by omega)
    exact ⟨O', C', RPfull, D'⟩

/-- Helper: pairwise-orthogonal nonzero rational vectors are linearly
independent. -/
theorem orthogonal_linearIndependent (m k : ℕ) (v : Fin k → Fin m → ℚ)
    (hnz : ∀ i, v i ≠ 0)
    (horth : ∀ i j, i ≠ j → Matrix.dotProduct (v i) (v j) = 0) :
    LinearIndependent ℚ v := by
  rw [Fintype.linearIndependent_iff]
  intro c hc j
  have h1 : Matrix.dotProduct (∑ i, c i • v i) (v j) = 0 := by
    rw [hc, Matrix.zero_dotProduct]
  rw [sum_dotProduct_eq] at h1
  have h2 : ∀ i, Matrix.dotProduct (c i • v i) (v j)
      = c i * Matrix.dotProduct (v i) (v j) := by
    intro i
    rw [Matrix.smul_dotProduct]
    rfl
  rw [Finset.sum_congr rfl (fun i _ => h2 i)] at h1
  rw [Finset.sum_eq_single j
    (fun i _ hij => by rw [horth i j hij, mul_zero])
    (fun hj => absurd (Finset.mem_univ j) hj)] at h1
  rcases mul_eq_zero.mp h1 with hcj | hvv
  · exact hcj
  · exact absurd hvv (ne_of_gt (dotProduct_self_pos m (v j) (hnz j)))

/-- Helper: in exact arithmetic some conjugate-gradient residual within the
first `n` iterations vanishes — otherwise `ℚ^n` would contain `n + 1`
pairwise-orthogonal nonzero vectors. -/
theorem cg_exists_zero_residual (n : ℕ) (A : Matrix (Fin n) (Fin n) ℚ)
    (g : Fin n → ℚ)
    (hsym : ∀ u w, Matrix.dotProduct (A.mulVec u) w
      = Matrix.dotProduct u (A.mulVec w))
    (hpos : ∀ u, u ≠ 0 → 0 < Matrix.dotProduct u (A.mulVec u)) :
    ∃ k, k ≤ n ∧ cgR n A g k = 0 := by
  by_contra hcon
  push_neg at hcon
  have hnz : ∀ j, j < n + 1 → cgR n A g j ≠ 0 := fun j hj => hcon j (by omega)
  obtain ⟨O, _, _, _⟩ :=
    cg_invariants n A g hsym hpos n (fun j hj => hnz j (by omega))
  have hli : LinearIndependent ℚ (fun i : Fin (n + 1) => cgR n A g i) := by
    apply orthogonal_linearIndependent
    · intro i
      exact hnz i i.isLt
    · intro i j hne
      rcases Nat.lt_or_ge (i : ℕ) (j : ℕ) with h | h
      · exact O i j h (Nat.lt_succ_iff.mp j.isLt)
      · have hji : (j : ℕ) < (i : ℕ) := by
          rcases Nat.lt_or_ge (j : ℕ) (i : ℕ) with h' | h'
          · exact h'
          · exact absurd (Fin.ext (le_antisymm h' h)) hne
        rw [Matrix.dotProduct_comm]
        exact O j i hji (Nat.lt_succ_iff.mp i.isLt)
  have hcard := hli.fintype_card_le_finrank
  rw [Fintype.card_fin] at hcard
  have hrank : Module.finrank ℚ (Fin n → ℚ) = n := by
    simp [Module.finrank_pi]
  rw [hrank] at hcard
  omega

/-- Helper: if some iterate within the fuel bound has squared residual below
the tolerance, so does the final state of the early-exiting loop. -/
theorem cgLoop_small_residual (n : ℕ) (A : Matrix (Fin n) (Fin n) ℚ) (tol : ℚ) :
    ∀ (fuel : ℕ) (s : CGState n),
      (∃ j, j ≤ fuel ∧
        Matrix.dotProduct ((cgStep n A)^[j] s).r ((cgStep n A)^[j] s).r < tol) →
      Matrix.dotProduct (cgLoop n A tol fuel s).r
        (cgLoop n A tol fuel s).r < tol := by
  intro fuel
  induction fuel with
  | zero =>
    intro s hex
    obtain ⟨j, hj, hsm⟩ := hex
    have hj0 : j = 0 := by omega
    subst hj0
    simpa [cgLoop] using hsm
  | succ fuel ih =>
    intro s hex
    obtain ⟨j, hj, hsm⟩ := hex
    by_cases h0 : Matrix.dotProduct s.r s.r < tol
    · simp only [cgLoop, if_pos h0]
      exact h0
    · have hj0 : j ≠ 0 := by
        intro hj'
        subst hj'
        exact h0 (by simpa using hsm)
      obtain ⟨j', rfl⟩ : ∃ j', j = j' + 1 := ⟨j - 1, by omega⟩
      have hstep : (cgStep n A)^[j' + 1] s = (cgStep n A)^[j'] (cgStep n A s) :=
        Function.iterate_succ_apply (cgStep n A) j' s
      simp only [cgLoop, if_neg h0]
      exact ih (cgStep n A s) ⟨j', by omega, by rw [← hstep]; exact hsm⟩

/-- Helper: the early-exiting loop preserves the residual identity
`r = g - A x`. -/
theorem cgLoop_residual (n : ℕ) (A : Matrix (Fin n) (Fin n) ℚ) (g : Fin n → ℚ)
    (tol : ℚ) :
    ∀ (fuel : ℕ) (s : CGState n), s.r = g - A.mulVec s.x →
      (cgLoop n A tol fuel s).r = g - A.mulVec ((cgLoop n A tol fuel s).x) := by
  intro fuel
  induction fuel with
  | zero =>
    intro s hs
    simpa [cgLoop] using hs
  | succ fuel ih =>
    intro s hs
    by_cases h0 : Matrix.dotProduct s.r s.r < tol
    · simp only [cgLoop, if_pos h0]
      exact hs
    · simp only [cgLoop, if_neg h0]
      apply ih
      have hr : (cgStep n A s).r = s.r -
          (Matrix.dotProduct s.r s.r
            / Matrix.dotProduct s.p (A.mulVec s.p)) • A.mulVec s.p := rfl
      have hx : (cgStep n A s).x = s.x +
          (Matrix.dotProduct s.r s.r
            / Matrix.dotProduct s.p (A.mulVec s.p)) • s.p := rfl
      rw [hr, hx, hs, Matrix.mulVec_add, Matrix.mulVec_smul, sub_add_eq_sub_sub]

/-- C7: For every symmetric positive-definite operator `A` of dimension `n`
and every right-hand side `g`, the conjugate-gradient solver with damping 0
run for at most `n` iterations returns `x` solving `A x = g` within the
numerical tolerance — the squared residual norm of the returned iterate is
below `residual_tol` — and the loop exits early as soon as the squared
residual norm falls below the tolerance. -/
theorem conjugate_gradient_converges (n : ℕ) (A : Matrix (Fin n) (Fin n) ℚ)
    (g : Fin n → ℚ) (tol : ℚ)
    (hsym : ∀ u w, Matrix.dotProduct (A.mulVec u) w
      = Matrix.dotProduct u (A.mulVec w))
    (hpos : ∀ u, u ≠ 0 → 0 < Matrix.dotProduct u (A.mulVec u))
    (htol : 0 < tol) :
    Matrix.dotProduct (g - A.mulVec (conjugate_gradient n A g n tol))
        (g - A.mulVec (conjugate_gradient n A g n tol)) < tol
    ∧ (∀ (fuel : ℕ) (s : CGState n), Matrix.dotProduct s.r s.r < tol →
        cgLoop n A tol (fuel + 1) s = s) := by
  constructor
  · obtain ⟨k, hk, hzero⟩ := cg_exists_zero_residual n A g hsym hpos
    have hsm : ∃ j, j ≤ n ∧
        Matrix.dotProduct ((cgStep n A)^[j] (cgInit n g)).r
          ((cgStep n A)^[j] (cgInit n g)).r < tol := by
      refine ⟨k, hk, ?_⟩
      have hz : ((cgStep n A)^[k] (cgInit n g)).r = 0 := hzero
      rw [hz, Matrix.dotProduct_zero]
      exact htol
    have hres := cgLoop_small_residual n A tol n (cgInit n g) hsm
    have hinv := cgLoop_residual n A g tol n (cgInit n g) (by
      show (cgInit n g).r = g - A.mulVec (cgInit n g).x
      simp [cgInit, Matrix.mulVec_zero])
    rw [conjugate_gradient, ← hinv]
    exact hres
  · intro fuel s h
    simp only [cgLoop, if_pos h]

/-- Witness for C7 at a concrete input: the identity operator on `ℚ^2`. -/
theorem conjugate_gradient_converges_witness :
    (∀ u w : Fin 2 → ℚ,
      Matrix.dotProduct ((1 : Matrix (Fin 2) (Fin 2) ℚ).mulVec u) w
        = Matrix.dotProduct u ((1 : Matrix (Fin 2) (Fin 2) ℚ).mulVec w))
    ∧ (∀ u : Fin 2 → ℚ, u ≠ 0 →
      0 < Matrix.dotProduct u ((1 : Matrix (Fin 2) (Fin 2) ℚ).mulVec u))
    ∧ ((0 : ℚ) < 1 / 1000)
    ∧ (Matrix.dotProduct
          (![3, 4] - (1 : Matrix (Fin 2) (Fin 2) ℚ).mulVec
            (conjugate_gradient 2 1 ![3, 4] 2 (1 / 1000)))
          (![3, 4] - (1 : Matrix (Fin 2) (Fin 2) ℚ).mulVec
            (conjugate_gradient 2 1 ![3, 4] 2 (1 / 1000))) < 1 / 1000
      ∧ (∀ (fuel : ℕ) (s : CGState 2),
          Matrix.dotProduct s.r s.r < 1 / 1000 →
          cgLoop 2 1 (1 / 1000) (fuel + 1) s = s)) := by
  have hsym : ∀ u w : Fin 2 → ℚ,
      Matrix.dotProduct ((1 : Matrix (Fin 2) (Fin 2) ℚ).mulVec u) w
        = Matrix.dotProduct u ((1 : Matrix (Fin 2) (Fin 2) ℚ).mulVec w) := by
    intro u w
    rw [Matrix.one_mulVec, Matrix.one_mulVec]
  have hpos : ∀ u : Fin 2 → ℚ, u ≠ 0 →
      0 < Matrix.dotProduct u ((1 : Matrix (Fin 2) (Fin 2) ℚ).mulVec u) := by
    intro u hu
    rw [Matrix.one_mulVec]
    exact dotProduct_self_pos 2 u hu
  exact ⟨hsym, hpos, by norm_num,
    conjugate_gradient_converges 2 1 ![3, 4] (1 / 1000) hsym hpos (by norm_num)⟩

/-- C8 (amended): The driver persists the policy parameters (rewritten once
per iteration) and the run configuration (written once), and appends exactly
one structured record per outer iteration to the log file; but each record
is the whole cumulative `train_logs` mapping — one entry per iteration up to
and including the current one, keyed `batch_0 … batch_k` — rather than a
flat mapping of metrics for that iteration alone. -/
theorem persisted_state_and_log (cfg : Config) (f : String) (mkLogs : ℕ → PyVal) :
    ∃ s, runMain cfg (some f) mkLogs = Except.ok s
    ∧ s.configSaves = 1
    ∧ s.policySaves = cfg.numBatches
    ∧ s.logFile.length = cfg.numBatches
    ∧ s.logFile = (List.range cfg.numBatches).map (fun k => cumulLogs mkLogs (k + 1))
    ∧ (∀ k, dictKeys (cumulLogs mkLogs (k + 1))
        = (List.range (k + 1)).map batchKey) := by
  obtain ⟨s, h1, _h2, _h3, h4, h5, h6, _h7⟩ := runMain_ok cfg f mkLogs
  refine ⟨s, h1, h5, h4, ?_, h6, ?_⟩
  · rw [h6]; simp
  · intro k
    obtain ⟨kvs, hk, hkeys⟩ := cumulLogs_keys mkLogs (k + 1)
    rw [hk]
    simpa [dictKeys] using hkeys

/-- C8 counterexample: with two outer iterations, the record appended at the
second iteration is not a record of that iteration's metrics alone — it
still contains the first iteration's entry under `batch_0`, because train.py
dumps the whole cumulative `train_logs` dict on every iteration. -/
theorem append_log_per_iteration_cex :
    ∃ s, runMain (Config.mk 2 1) (some "out")
        (fun b => PyVal.pyDict [("num_iterations", PyVal.scalar (b : ℚ))])
        = Except.ok s
    ∧ s.logFile.length = 2
    ∧ dictKeys (s.logFile.getD 1 (PyVal.pyDict [])) = [batchKey 0, batchKey 1]
    ∧ batchKey 0 ≠ batchKey 1 := by
  obtain ⟨s, h1, _h2, _h3, _h4, _h5, h6, _h7⟩ :=
    runMain_ok (Config.mk 2 1) "out"
      (fun b => PyVal.pyDict [("num_iterations", PyVal.scalar (b : ℚ))])
  have hrange : List.range 2 = [0, 1] := rfl
  refine ⟨s, h1, by rw [h6, hrange]; rfl, ?_, by decide⟩
  rw [h6, hrange]
  obtain ⟨kvs, hk, hkeys⟩ :=
    cumulLogs_keys (fun b => PyVal.pyDict [("num_iterations", PyVal.scalar (b : ℚ))]) 2
  have hget : (List.map
        (fun j => cumulLogs
          (fun b => PyVal.pyDict [("num_iterations", PyVal.scalar (b : ℚ))]) (j + 1))
        [0, 1]).getD 1 (PyVal.pyDict [])
      = cumulLogs (fun b => PyVal.pyDict [("num_iterations", PyVal.scalar (b : ℚ))]) 2 := by
    norm_num
  rw [hget, hk]
  simpa [dictKeys, hrange] using hkeys

/-- C10: With no output folder, the driver still reaches the per-iteration
log-saving code, whose path construction from the `None` folder raises at
the end of the first outer iteration: no outer iteration completes, no log
record is appended, and the policy-save and config-save steps are skipped,
although the iteration's sampling and meta-update did run. -/
theorem no_output_folder_raises (cfg : Config) (mkLogs : ℕ → PyVal)
    (h : 1 ≤ cfg.numBatches) :
    ∃ s, runMain cfg none mkLogs = Except.error s
    ∧ s.completed = 0
    ∧ s.policySaves = 0
    ∧ s.configSaves = 0
    ∧ s.logFile = []
    ∧ Event.computeUpdate 0 ∈ s.events
    ∧ Event.savePolicy 0 ∉ s.events
    ∧ Event.saveConfig ∉ s.events := by
  obtain ⟨k, hk⟩ : ∃ k, cfg.numBatches = k + 1 := ⟨cfg.numBatches - 1, by omega⟩
  have hiter : runIteration cfg none mkLogs 0 (initState none) = Except.error
      { trainLogs := convert_np_arrays
          (dictInsert (PyVal.pyDict []) (batchKey 0) (mkLogs 0))
        logFile := []
        policySaves := 0
        configSaves := 0
        events := [Event.sampleTasks cfg.metaBatchSize,
                   Event.sampleAsync 0 cfg.metaBatchSize,
                   Event.collectDone 0,
                   Event.computeUpdate 0,
                   Event.sampleWait 0]
        completed := 0 } := by
    simp [runIteration, ospathJoin, initState]
  refine ⟨{ trainLogs := convert_np_arrays
              (dictInsert (PyVal.pyDict []) (batchKey 0) (mkLogs 0))
            logFile := []
            policySaves := 0
            configSaves := 0
            events := [Event.sampleTasks cfg.metaBatchSize,
                       Event.sampleAsync 0 cfg.metaBatchSize,
                       Event.collectDone 0,
                       Event.computeUpdate 0,
                       Event.sampleWait 0]
            completed := 0 }, ?_, rfl, rfl, rfl, rfl, by simp, by simp, by simp⟩
  rw [runMain, hk, List.range_succ_eq_map]
  simp [runBatches, hiter]

/-- Witness for C10 at a concrete input. -/
theorem no_output_folder_raises_witness :
    1 ≤ (Config.mk 1 2).numBatches
    ∧ (∃ s, runMain (Config.mk 1 2) none (fun _ => PyVal.pyDict [])
          = Except.error s
      ∧ s.completed = 0
      ∧ s.policySaves = 0
      ∧ s.configSaves = 0
      ∧ s.logFile = []
      ∧ Event.computeUpdate 0 ∈ s.events
      ∧ Event.savePolicy 0 ∉ s.events
      ∧ Event.saveConfig ∉ s.events) :=
  ⟨by decide,
    no_output_folder_raises (Config.mk 1 2) (fun _ => PyVal.pyDict []) (by decide)⟩

/-- Witness for C5 at a concrete input. -/
theorem step_scale_nonpos_curvature_witness :
    ((-1 : ℝ) ≤ 0) ∧ ((fun _ : ℚ => (5 : ℚ)) 0 = 5)
    ∧ (step_scale (-1) (1/100) = 0
      ∧ trpo_update (fun _ => (5 : ℚ)) (fun _ => (0 : ℚ)) 5 (1/100) (1/2) 3 0
          [1, 2] [3, 4] = [1, 2]
      ∧ ∀ a b : ℝ, 0 ≤ step_scale a b) :=
  ⟨by norm_num, rfl,
    step_scale_nonpos_curvature (-1) (1/100) (fun _ => (5 : ℚ)) (fun _ => (0 : ℚ))
      5 (1/100) (1/2) 3 [1, 2] [3, 4] (by norm_num) rfl⟩

end MamlRl
